import Mathlib

/-!
Verification of the reactive scene-graph engine (engine.hpp and the context
code of FlappyBird.cpp) against its natural-language specification.

The engine is shallowly embedded:
* state cells live in an explicit store `Store : Nat → Val`; a `State<T>`
  handle is `Option Nat` (`none` models a null `slot` pointer);
* `Detail::Dependency`, `EffectHook` and `EffectHook::runIfChanged` are
  translated field by field; fallible calls return `Except String`;
* the `Node` methods `AddChild` / `RemoveChild` / `SetChildren` act on a heap
  `Nat → NodeData` of nodes addressed by identity;
* the `updateTree` walker is translated twice: once over an inductive tree
  whose callbacks are store transformers (sufficient for walks that do not
  mutate the tree), and once over the node heap with defunctionalized
  callback actions (needed for `Conditional`, whose effect mutates the tree);
* `Node::getContextValue` of FlappyBird.cpp is translated over the chain of
  context maps encountered while walking `parent` links upward.
-/

namespace Engine

/-- Values stored in state cells.  The constructors cover the element types
the program instantiates `Detail::Dependency<T>` with (`int` and enums, which
C++ compares with the arithmetic/enum branch, `bool`, `std::string`) together
with `std::vector`, whose comparison policy the spec singles out.  The
`hasChanged` comparison in the source dispatches on the static type `T`, so a
comparison between values of different constructors never arises. -/
inductive Val where
  | i (n : Int)
  | b (bo : Bool)
  | s (st : String)
  | vec (l : List Int)
deriving DecidableEq

/-- The store of state-cell slots: cell id to current value.  A slot created
by `Node::state` always holds a value, so the store is total. -/
def Store : Type := Nat → Val

/-- Overwrite one cell (the assignment `slot->value = newVal`). -/
def setCell (σ : Store) (c : Nat) (v : Val) : Store :=
  fun k => if k = c then v else σ k

/-- A `State<T>` handle: `none` is a default-constructed handle whose `slot`
is null, `some c` is a handle bound to cell `c`. -/
abbrev StateH : Type := Option Nat

/-- Translation of `State::isValid`: `slot != nullptr`. -/
def stateIsValid (h : StateH) : Bool := h.isSome

/-- Translation of `State::get`: throws on a null slot, otherwise returns the
slot value. -/
def stateGet (h : StateH) (σ : Store) : Except String Val :=
  match h with
  | none => .error "Accessing uninitialized state via get()"
  | some c => .ok (σ c)

/-- Translation of `State::set`: throws on a null slot, otherwise overwrites
the slot. -/
def stateSet (h : StateH) (v : Val) (σ : Store) : Except String Store :=
  match h with
  | none => .error "Accessing uninitialized state via set()"
  | some c => .ok (setCell σ c v)

/-- The comparison performed by `Detail::Dependency<T>::hasChanged` once both
a current and a cached value exist, on the `if constexpr` branch selected by
the element type: `!=` for string/arithmetic/enum types, size comparison for
`std::vector`. -/
def valNeq : Val → Val → Bool
  | .i a, .i bv => a != bv
  | .b a, .b bv => a != bv
  | .s a, .s bv => a != bv
  | .vec a, .vec bv => a.length != bv.length
  | _, _ => true

/-- Translation of `Detail::Dependency<T>`: a bound `State` handle plus the cached
last-observed value. -/
structure Dependency where
  state : StateH
  lastValue : Option Val
deriving DecidableEq

/-- Translation of `Detail::Dependency::hasChanged`, line by line: an invalid
handle reports unchanged; otherwise the current value is read with
`State::get` and compared with the cache. -/
def Dependency.hasChanged (d : Dependency) (σ : Store) : Except String Bool :=
  if stateIsValid d.state = false then
    .ok false
  else do
    let currentValue ← stateGet d.state σ
    match d.lastValue with
    | none => pure true
    | some last => pure (valNeq currentValue last)

/-- Translation of `Detail::Dependency::updateLastValue`: re-snapshot if the
handle is valid, otherwise clear the cache. -/
def Dependency.updateLastValue (d : Dependency) (σ : Store) :
    Except String Dependency :=
  if stateIsValid d.state then do
    let v ← stateGet d.state σ
    pure { d with lastValue := some v }
  else
    pure { d with lastValue := none }

/-- Pure description of `hasChanged` (used to state theorems; the lemma
`hasChanged_eq_ok` connects it to the translation). -/
def Dependency.changedNow (d : Dependency) (σ : Store) : Bool :=
  match d.state with
  | none => false
  | some c =>
    match d.lastValue with
    | none => true
    | some last => valNeq (σ c) last

/-- Pure description of `updateLastValue`. -/
def Dependency.snap (d : Dependency) (σ : Store) : Dependency :=
  match d.state with
  | some c => { d with lastValue := some (σ c) }
  | none => { d with lastValue := none }

/-- Translation of `EffectHook`: the action closure (a store transformer), the
dependency trackers in declaration order, and the first-run flag. -/
structure EffectHook where
  effectFn : Store → Store
  dependencies : List Dependency
  isFirstRun : Bool

/-- The dependency scan of `runIfChanged`: the `for` loop with `break`, which
stops at the first dependency reporting changed. -/
def anyChanged : List Dependency → Store → Except String Bool
  | [], _ => .ok false
  | d :: rest, σ => do
    let c ← d.hasChanged σ
    if c then pure true else anyChanged rest σ

/-- The snapshot loop of `runIfChanged`: `updateLastValue` on every tracked
dependency, in order. -/
def updateAllDeps : List Dependency → Store → Except String (List Dependency)
  | [], _ => .ok []
  | d :: rest, σ => do
    let d' ← d.updateLastValue σ
    let rest' ← updateAllDeps rest σ
    pure (d' :: rest')

/-- Translation of `EffectHook::runIfChanged`: on the first run, or when some dependency
changed, execute the action, then re-snapshot every dependency from the
post-action store and clear the first-run flag; otherwise do nothing. -/
def EffectHook.runIfChanged (eh : EffectHook) (σ : Store) :
    Except String (EffectHook × Store) := do
  let dependenciesChanged ← if eh.isFirstRun then pure true
                            else anyChanged eh.dependencies σ
  if dependenciesChanged then do
    let σ' := eh.effectFn σ
    let deps ← updateAllDeps eh.dependencies σ'
    pure ({ effectFn := eh.effectFn, dependencies := deps,
            isFirstRun := false }, σ')
  else
    pure (eh, σ)

/-- Iterate `runIfChanged` a number of times on the same hook (one call per
update pass, as `updateTree` performs). -/
def runMany (eh : EffectHook) (σ : Store) : Nat → Except String (EffectHook × Store)
  | 0 => .ok (eh, σ)
  | n + 1 => do
    let r ← eh.runIfChanged σ
    runMany r.1 r.2 n

/-- Integer content of a cell value (helper for instrumented actions). -/
def valToInt : Val → Int
  | .i n => n
  | _ => 0

/-- An instrumented action that counts its own executions in cell `k`. -/
def bumpCell (k : Nat) : Store → Store :=
  fun σ => setCell σ k (.i (valToInt (σ k) + 1))

-- Node heap model -------------------------------------------------------------

/-- Defunctionalized callback actions for the heap model.  Each constructor
stands for one of the concrete closures appearing in the program: plain cell
writes, the accumulate-into-a-cell update callbacks, and the closure
registered by `Conditional` (translated in `runAct`). -/
inductive Act where
  | nop
  | setCellConst (dst : Nat) (v : Val)
  | copyCell (dst src : Nat)
  | addToCell (dst src : Nat)
  | condToggle (self : Nat) (condition : StateH) (childComponent : Option Nat)

/-- An `EffectHook` whose action is a defunctionalized `Act` (the heap-model
counterpart of `EffectHook`; `runWHook` mirrors `runIfChanged`). -/
structure WEffectHook where
  act : Act
  dependencies : List Dependency
  isFirstRun : Bool

/-- Translation of `Node`: parent back-pointer, child list (children are stored by
node identity; the lists never contain a null entry because `AddChild` and
`SetChildren` skip null pointers), and the hook storage the update walker
consumes (update callbacks and effect hooks, in registration order). -/
structure NodeData where
  parent : Option Nat
  children : List Nat
  updates : List Act
  effects : List WEffectHook

/-- The node heap: node identity to node contents. -/
def Heap : Type := Nat → NodeData

/-- Replace one node of the heap. -/
def setNode (h : Heap) (n : Nat) (nd : NodeData) : Heap :=
  fun k => if k = n then nd else h k

/-- The shared body of `Node::AddChild` and of the re-parenting loop of
`Node::SetChildren`: `children.push_back(child); child->parent = this;`. -/
def attach (h : Heap) (p c : Nat) : Heap :=
  let h1 := setNode h p { h p with children := (h p).children ++ [c] }
  setNode h1 c { h1 c with parent := some p }

/-- Translation of `Node::AddChild`: a null child is a no-op, otherwise append and set the
back-reference. -/
def addChild (h : Heap) (p : Nat) (child : Option Nat) : Heap :=
  match child with
  | none => h
  | some c => attach h p c

/-- Translation of `Node::RemoveChild`: the erase idiom removes every entry that
compares equal (by identity) to `childToRemove`, and the predicate clears the
back-reference of each removed entry; a null argument or an absent child is a
no-op. -/
def removeChild (h : Heap) (p : Nat) (childToRemove : Option Nat) : Heap :=
  match childToRemove with
  | none => h
  | some c =>
    let present := (h p).children.contains c
    let h1 := setNode h p
      { h p with children := (h p).children.filter (fun x => x != c) }
    if present then setNode h1 c { h1 c with parent := none } else h1

/-- The un-parenting loop of `Node::SetChildren`: clear the back-reference of
every current child. -/
def unparentAll (h : Heap) (l : List Nat) : Heap :=
  l.foldl (fun acc oldChild =>
    setNode acc oldChild { acc oldChild with parent := none }) h

/-- The re-population loop of `Node::SetChildren`: append each non-null new
child and set its back-reference. -/
def attachAll (h : Heap) (p : Nat) (cs : List (Option Nat)) : Heap :=
  cs.foldl (fun acc child =>
    match child with
    | none => acc
    | some c => attach acc p c) h

/-- Translation of `Node::SetChildren` (both overloads have identical bodies): un-parent all
current children, clear the list, then append and re-parent every non-null
entry of the new list. -/
def setChildren (h : Heap) (p : Nat) (newChildren : List (Option Nat)) : Heap :=
  let h1 := unparentAll h (h p).children
  let h2 := setNode h1 p { h1 p with children := [] }
  attachAll h2 p newChildren

/-- One structural mutation of the tree, as in claim C4. -/
inductive TreeOp where
  | add (p : Nat) (c : Option Nat)
  | remove (p : Nat) (c : Option Nat)
  | setChs (p : Nat) (cs : List (Option Nat))

def applyOp (h : Heap) : TreeOp → Heap
  | .add p c => addChild h p c
  | .remove p c => removeChild h p c
  | .setChs p cs => setChildren h p cs

def applyOps (h : Heap) (ops : List TreeOp) : Heap :=
  ops.foldl applyOp h

/-- A freshly constructed parentless `Node`: null parent, no children, empty
hook storage. -/
def freshNode : NodeData :=
  { parent := none, children := [], updates := [], effects := [] }

/-- The initial heap of claim C4: every node freshly constructed and
parentless. -/
def initialHeap : Heap := fun _ => freshNode

/-- The parent/child link invariant of the spec: a non-null `parent` pointer
points to a node whose child list contains the pointing node. -/
def parentInv (h : Heap) : Prop :=
  ∀ n p : Nat, (h n).parent = some p → n ∈ (h p).children

-- World model: heap together with the state-cell store --------------------------

/-- The full mutable state the defunctionalized callbacks act on. -/
structure World where
  heap : Heap
  store : Store

def valAsBool : Val → Except String Bool
  | .b bo => .ok bo
  | _ => .error "dependency value is not a bool"

def valAsInt : Val → Except String Int
  | .i n => .ok n
  | _ => .error "cell value is not an int"

/-- Interpretation of the defunctionalized actions.  `condToggle` is the
closure registered by `Conditional` in engine.hpp: bail out on a null child,
test membership of the child in the wrapper's current child list, then add
the child if the condition cell reads true and it is absent, or remove it if
the condition reads false and it is present. -/
def runAct (a : Act) (w : World) : Except String World :=
  match a with
  | .nop => .ok w
  | .setCellConst dst v => .ok { w with store := setCell w.store dst v }
  | .copyCell dst src => .ok { w with store := setCell w.store dst (w.store src) }
  | .addToCell dst src => do
    let a ← valAsInt (w.store dst)
    let bv ← valAsInt (w.store src)
    .ok { w with store := setCell w.store dst (.i (a + bv)) }
  | .condToggle self condition childComponent =>
    match childComponent with
    | none => .ok w
    | some c =>
      let isCurrentlyChild := (w.heap self).children.contains c
      do
        let cv ← stateGet condition w.store
        let cond ← valAsBool cv
        if cond then
          if isCurrentlyChild then .ok w
          else .ok { w with heap := addChild w.heap self (some c) }
        else
          if isCurrentlyChild then
            .ok { w with heap := removeChild w.heap self (some c) }
          else .ok w

/-- Heap-model `runIfChanged`, mirroring `EffectHook::runIfChanged` with the
action interpreted over the whole world. -/
def runWHook (eh : WEffectHook) (w : World) :
    Except String (WEffectHook × World) := do
  let dependenciesChanged ← if eh.isFirstRun then pure true
                            else anyChanged eh.dependencies w.store
  if dependenciesChanged then do
    let w' ← runAct eh.act w
    let deps ← updateAllDeps eh.dependencies w'.store
    pure ({ act := eh.act, dependencies := deps, isFirstRun := false }, w')
  else
    pure (eh, w)

/-- Run a node's update callbacks in registration order. -/
def runActs : List Act → World → Except String World
  | [], w => .ok w
  | a :: rest, w => do
    let w' ← runAct a w
    runActs rest w'

/-- Store back the mutated effect hook at its index in the owning node. -/
def setEffectAt (w : World) (n i : Nat) (eh : WEffectHook) : World :=
  { w with heap := (setNode w.heap n
      { w.heap n with effects := (w.heap n).effects.set i eh }) }

/-- The effects loop of `updateTree`: call `runIfChanged` on each of the
node's effect hooks in order, writing the mutated hook back in place
(`remaining` counts the hooks left to visit). -/
def runEffectsLoop (n : Nat) : Nat → Nat → World → Except String World
  | _, 0, w => .ok w
  | i, r + 1, w =>
    let effs := (w.heap n).effects
    if hlt : i < effs.length then do
      let res ← runWHook (effs.get ⟨i, hlt⟩) w
      runEffectsLoop n (i + 1) r (setEffectAt res.2 n i res.1)
    else .ok w

/-- Translation of `updateTree` over the node heap: a null node is a no-op; otherwise run
the node's update callbacks, then its effect hooks via `runIfChanged`, then
recurse (in list order) into the children, whose list is read after the
effects ran — `Conditional`'s effect mutates it in that stage.  The `fuel`
argument only bounds the recursion depth so the function is total; every
theorem below walks a concrete tree whose depth is below its fuel. -/
def updateTreeW (fuel : Nat) (node : Option Nat) (w : World) :
    Except String World :=
  match fuel with
  | 0 =>
    match node with
    | none => .ok w
    | some _ => .error "traversal depth bound exceeded"
  | fuel' + 1 =>
    match node with
    | none => .ok w
    | some n => do
      let w1 ← runActs (w.heap n).updates w
      let w2 ← runEffectsLoop n 0 ((w1.heap n).effects.length) w1
      ((w2.heap n).children).foldlM
        (fun acc k => updateTreeW fuel' (some k) acc) w2

/-- The wrapper node built by `Conditional(condition, childComponent)`: a
fresh node whose only hook is one effect holding the `condToggle` closure,
with the condition cell as its single tracked dependency.  `self` is the
identity of the wrapper node itself (the `weak_ptr` the closure captures). -/
def conditionalNode (self : Nat) (condition : StateH)
    (childComponent : Option Nat) : NodeData :=
  { parent := none, children := [], updates := [],
    effects := [{ act := .condToggle self condition childComponent,
                  dependencies := [{ state := condition, lastValue := none }],
                  isFirstRun := true }] }

-- Concrete scenario of claim C6 ------------------------------------------------

/-- C6 scenario, cell layout: cell 0 is the condition `b`, cell 1 the child's
accumulating counter, cell 2 the amount the child's update callback adds to
the counter on each visited pass. -/
def c6Store0 : Store :=
  fun k => if k = 0 then .b true else if k = 1 then .i 0
           else if k = 2 then .i 1 else .i 0

/-- C6 scenario, node layout: node 0 is the `Conditional` wrapper over child
node 1; the child owns an update callback accumulating cell 2 into cell 1. -/
def c6Heap0 : Heap :=
  fun k =>
    if k = 0 then conditionalNode 0 (some 0) (some 1)
    else if k = 1 then
      { parent := none, children := [], updates := [.addToCell 1 2],
        effects := [] }
    else freshNode

def c6World0 : World := { heap := c6Heap0, store := c6Store0 }

/-- One host update pass of the C6 scenario (fuel 3 covers the depth-2 tree). -/
def c6Pass (w : World) : Except String World := updateTreeW 3 (some 0) w

/-- The C6 round trip: two passes with the condition true (the counter
accumulates to 2), stop the accumulation and set the condition false, one
pass (unmounts the child), set the condition true, one pass (remounts the
child). -/
def c6Run : Except String World := do
  let w1 ← c6Pass c6World0
  let w2 ← c6Pass w1
  let w3 := { w2 with store := setCell (setCell w2.store 2 (.i 0)) 0 (.b false) }
  let w4 ← c6Pass w3
  let w5 := { w4 with store := setCell w4.store 0 (.b true) }
  c6Pass w5

/-- The state of the C6 scenario just before unmounting (after the two
accumulating passes). -/
def c6BeforeUnmount : Except String World := do
  let w1 ← c6Pass c6World0
  c6Pass w1

-- Inductive tree model for walks that do not mutate the tree --------------------

/-- A scene-graph node for the inductive-tree `updateTree` model: update
callbacks (taking the elapsed-time value), effect hooks, children.  Parent
pointers and the context map play no role in the update walker and are
omitted here; walks whose callbacks mutate the tree structure use the heap
model above instead. -/
inductive ENode where
  | mk (updates : List (Rat → Store → Store)) (effects : List EffectHook)
       (children : List ENode)

/-- The update-callback loop of `updateTree`: `fn(dt)` for each registered
callback, in order. -/
def runUpdateCallbacks (dt : Rat) (fns : List (Rat → Store → Store))
    (σ : Store) : Store :=
  fns.foldl (fun s f => f dt s) σ

/-- The effects loop of `updateTree`: `runIfChanged` on each hook in order,
keeping the mutated hooks. -/
def runEffectHooks : List EffectHook → Store → Except String (List EffectHook × Store)
  | [], σ => .ok ([], σ)
  | eh :: rest, σ => do
    let r ← eh.runIfChanged σ
    let rr ← runEffectHooks rest r.2
    pure (r.1 :: rr.1, rr.2)

mutual

/-- The body of `updateTree` at a non-null node: update callbacks, then
effect hooks, then the children in list order. -/
def updateNode (dt : Rat) (n : ENode) (σ : Store) :
    Except String (ENode × Store) :=
  match n with
  | .mk ups effs kids => do
    let σ1 := runUpdateCallbacks dt ups σ
    let r ← runEffectHooks effs σ1
    let rk ← updateKids dt kids r.2
    pure (.mk ups r.1 rk.1, rk.2)

/-- The children loop of `updateTree`. -/
def updateKids (dt : Rat) (l : List ENode) (σ : Store) :
    Except String (List ENode × Store) :=
  match l with
  | [] => .ok ([], σ)
  | k :: rest => do
    let r ← updateNode dt k σ
    let rr ← updateKids dt rest r.2
    pure (r.1 :: rr.1, rr.2)

end

/-- Translation of `updateTree(node, dt)`: a null node is a no-op. -/
def updateTree (node : Option ENode) (dt : Rat) (σ : Store) :
    Except String (Option ENode × Store) :=
  match node with
  | none => .ok (none, σ)
  | some n => do
    let r ← updateNode dt n σ
    pure (some r.1, r.2)

/-- Translation of `Node::derived(computeFn, deps...)`: evaluate `computeFn` immediately,
seed a freshly allocated state cell `cid` with the result, and register an
effect with the same dependencies whose action re-evaluates `computeFn` and
writes the result into that cell.  Returns the handle of the new cell, the
store after seeding, and the registered effect hook. -/
def derivedM (computeFn : Store → Val) (cid : Nat) (deps : List StateH)
    (σ : Store) : StateH × Store × EffectHook :=
  let initialValue := computeFn σ
  let σ' := setCell σ cid initialValue
  (some cid, σ',
    { effectFn := fun s => setCell s cid (computeFn s),
      dependencies := deps.map (fun d => { state := d, lastValue := none }),
      isFirstRun := true })

-- Context resolution (FlappyBird.cpp) -------------------------------------------

/-- One node's `providedContextsMap`: context key (`std::type_index` of the
context descriptor) to the stored entry, an erased pointer recorded together
with the `std::type_index` of its static pointer type (how `std::any` tags
its payload, and what `std::any_cast<T*>` checks). -/
def CtxMap : Type := Nat → Option (Nat × Nat)

/-- Translation of `Node::getContextValue`, over the chain of context maps met
while walking `parent` links upward from the starting node (first element =
starting node's map).  At the first map holding the key, `std::any_cast`
returns the stored pointer when the requested static type matches the stored
one, and the `bad_any_cast` handler returns null otherwise — without
continuing the upward walk.  If no map holds the key, the walk falls off the
root and returns null. -/
def getContextValue : List CtxMap → Nat → Nat → Option Nat
  | [], _, _ => none
  | m :: rest, ctxTypeId, requestedTy =>
    match m ctxTypeId with
    | some e => if requestedTy = e.1 then some e.2 else none
    | none => getContextValue rest ctxTypeId requestedTy

end Engine

namespace Engine

-- Lemmas about the core effect machinery -------------------------------------

theorem exc_bind_ok {α β : Type} (a : α) (f : α → Except String β) :
    (Except.ok a >>= f : Except String β) = f a := rfl

theorem exc_pure_eq_ok {α : Type} (a : α) :
    (pure a : Except String α) = Except.ok a := rfl

theorem exc_map_ok {α β : Type} (f : α → β) (a : α) :
    (f <$> (Except.ok a : Except String α)) = Except.ok (f a) := rfl

theorem setCell_self (σ : Store) (c : Nat) (v : Val) : setCell σ c v c = v := by
  simp [setCell]

theorem setCell_other (σ : Store) (c k : Nat) (v : Val) (hk : k ≠ c) :
    setCell σ c v k = σ k := by
  simp [setCell, hk]

theorem hasChanged_eq_ok (d : Dependency) (σ : Store) :
    d.hasChanged σ = .ok (d.changedNow σ) := by
  cases hd : d.state with
  | none =>
    simp [Dependency.hasChanged, Dependency.changedNow, stateIsValid, hd]
  | some c =>
    cases hl : d.lastValue with
    | none =>
      simp [Dependency.hasChanged, Dependency.changedNow, stateIsValid, hd, hl,
        stateGet]
    | some last =>
      simp [Dependency.hasChanged, Dependency.changedNow, stateIsValid, hd, hl,
        stateGet]

theorem updateLastValue_eq_ok (d : Dependency) (σ : Store) :
    d.updateLastValue σ = .ok (d.snap σ) := by
  cases hd : d.state with
  | none =>
    simp [Dependency.updateLastValue, Dependency.snap, stateIsValid, hd,
      exc_pure_eq_ok]
  | some c =>
    simp [Dependency.updateLastValue, Dependency.snap, stateIsValid, hd,
      stateGet]

theorem anyChanged_eq_ok (ds : List Dependency) (σ : Store) :
    anyChanged ds σ = .ok (ds.any (fun d => d.changedNow σ)) := by
  induction ds with
  | nil => rfl
  | cons d rest ih =>
    simp only [anyChanged, hasChanged_eq_ok, List.any_cons]
    cases hc : d.changedNow σ with
    | true => rfl
    | false =>
      simpa [Except.bind] using ih

theorem updateAllDeps_eq_ok (ds : List Dependency) (σ : Store) :
    updateAllDeps ds σ = .ok (ds.map (fun d => d.snap σ)) := by
  induction ds with
  | nil => rfl
  | cons d rest ih =>
    simp [updateAllDeps, updateLastValue_eq_ok, ih, exc_bind_ok,
      exc_pure_eq_ok]

theorem snap_lastValue (d : Dependency) (σ : Store) :
    (d.snap σ).lastValue = d.state.map σ := by
  cases hd : d.state <;> simp [Dependency.snap, hd]

/-- The result of an executing call of `runIfChanged`. -/
theorem runIfChanged_fires (eh : EffectHook) (σ : Store)
    (hfire : eh.isFirstRun = true ∨
      eh.dependencies.any (fun d => d.changedNow σ) = true) :
    eh.runIfChanged σ =
      .ok ({ effectFn := eh.effectFn,
             dependencies :=
               eh.dependencies.map (fun d => d.snap (eh.effectFn σ)),
             isFirstRun := false }, eh.effectFn σ) := by
  cases hf : eh.isFirstRun with
  | true =>
    simp [EffectHook.runIfChanged, hf, updateAllDeps_eq_ok, exc_bind_ok,
      exc_pure_eq_ok]
  | false =>
    rcases hfire with h | h
    · exact absurd hf (by simp [h])
    · simp [EffectHook.runIfChanged, hf, anyChanged_eq_ok, h,
        updateAllDeps_eq_ok, exc_bind_ok, exc_pure_eq_ok]

/-- The result of a skipping call of `runIfChanged`. -/
theorem runIfChanged_skips (eh : EffectHook) (σ : Store)
    (hf : eh.isFirstRun = false)
    (hno : eh.dependencies.any (fun d => d.changedNow σ) = false) :
    eh.runIfChanged σ = .ok (eh, σ) := by
  simp [EffectHook.runIfChanged, hf, anyChanged_eq_ok, hno, exc_bind_ok,
    exc_pure_eq_ok]

theorem runMany_fixpoint (eh : EffectHook) (hf : eh.isFirstRun = false)
    (hdep : eh.dependencies = []) :
    ∀ (n : Nat) (σ : Store), runMany eh σ n = .ok (eh, σ) := by
  intro n
  induction n with
  | zero => intro σ; rfl
  | succ n ih =>
    intro σ
    have hskip : eh.runIfChanged σ = .ok (eh, σ) :=
      runIfChanged_skips eh σ hf (by simp [hdep])
    simp [runMany, hskip, exc_bind_ok, ih]

end Engine

namespace Engine

-- Claim theorems: effect machinery ---------------------------------------------

/-- C1: the first `runIfChanged` call always executes the action; a
subsequent call executes the action iff at least one tracked dependency
reports changed; after every execution each tracked dependency's cache is
re-snapshotted from the post-action store; consequently a zero-dependency
effect (here instrumented to count its executions in cell `k`) executes
exactly once over any positive number of calls. -/
theorem effect_runIfChanged_gating (eh : EffectHook) (σ : Store) :
    (eh.isFirstRun = true →
      eh.runIfChanged σ =
        .ok ({ effectFn := eh.effectFn,
               dependencies :=
                 eh.dependencies.map (fun d => d.snap (eh.effectFn σ)),
               isFirstRun := false }, eh.effectFn σ)) ∧
    (eh.isFirstRun = false →
      (eh.dependencies.any (fun d => d.changedNow σ) = true →
        eh.runIfChanged σ =
          .ok ({ effectFn := eh.effectFn,
                 dependencies :=
                   eh.dependencies.map (fun d => d.snap (eh.effectFn σ)),
                 isFirstRun := false }, eh.effectFn σ)) ∧
      (eh.dependencies.any (fun d => d.changedNow σ) = false →
        eh.runIfChanged σ = .ok (eh, σ))) ∧
    (∀ d : Dependency,
      (d.snap (eh.effectFn σ)).lastValue = d.state.map (eh.effectFn σ)) ∧
    (∀ (k : Nat) (m : Int) (n : Nat), σ k = .i m →
      (runMany { effectFn := bumpCell k, dependencies := [],
                 isFirstRun := true } σ (n + 1)).map (fun r => r.2 k) =
        .ok (.i (m + 1))) := by
  refine ⟨?_, ?_, ?_, ?_⟩
  · intro hf
    exact runIfChanged_fires eh σ (Or.inl hf)
  · intro hf
    refine ⟨?_, ?_⟩
    · intro hch
      exact runIfChanged_fires eh σ (Or.inr hch)
    · intro hno
      exact runIfChanged_skips eh σ hf hno
  · intro d
    exact snap_lastValue d (eh.effectFn σ)
  · intro k m n hk
    have hfire :
        EffectHook.runIfChanged
          { effectFn := bumpCell k, dependencies := [], isFirstRun := true } σ =
        .ok ({ effectFn := bumpCell k, dependencies := [],
               isFirstRun := false }, bumpCell k σ) :=
      runIfChanged_fires _ σ (Or.inl rfl)
    have hfix :
        runMany { effectFn := bumpCell k, dependencies := [],
                  isFirstRun := false } (bumpCell k σ) n =
        .ok ({ effectFn := bumpCell k, dependencies := [],
               isFirstRun := false }, bumpCell k σ) :=
      runMany_fixpoint _ rfl rfl n (bumpCell k σ)
    have hval : bumpCell k σ k = .i (m + 1) := by
      simp [bumpCell, setCell_self, hk, valToInt]
    simp [runMany, hfire, exc_bind_ok, hfix, hval, Except.map]

/-- Witness for C1: a one-dependency hook on its first run executes the
action and snapshots the dependency. -/
theorem effect_runIfChanged_gating_witness :
    EffectHook.runIfChanged
        { effectFn := fun σ => setCell σ 0 (.i 7),
          dependencies := [{ state := some 1, lastValue := none }],
          isFirstRun := true } (fun _ => .i 0) =
      .ok ({ effectFn := fun σ => setCell σ 0 (.i 7),
             dependencies := [{ state := some 1, lastValue := some (.i 0) }],
             isFirstRun := false },
           setCell (fun _ => .i 0) 0 (.i 7)) :=
  (effect_runIfChanged_gating
    { effectFn := fun σ => setCell σ 0 (.i 7),
      dependencies := [{ state := some 1, lastValue := none }],
      isFirstRun := true } (fun _ => .i 0)).1 rfl

/-- C3: for a tracker on a valid cell, `hasChanged` reports changed exactly
when there is no cached value yet or the current value differs from the
cache under the per-type comparison, which is `!=` for arithmetic, enum and
string values and size-only comparison for vectors — so two different
vectors of equal length report unchanged. -/
theorem dependency_hasChanged_policy :
    (∀ (d : Dependency) (σ : Store) (c : Nat), d.state = some c →
      d.hasChanged σ =
        .ok (match d.lastValue with
             | none => true
             | some last => valNeq (σ c) last)) ∧
    (∀ a bv : Int, valNeq (.i a) (.i bv) = (a != bv)) ∧
    (∀ a bv : Bool, valNeq (.b a) (.b bv) = (a != bv)) ∧
    (∀ a bv : String, valNeq (.s a) (.s bv) = (a != bv)) ∧
    (∀ l1 l2 : List Int,
      valNeq (.vec l1) (.vec l2) = (l1.length != l2.length)) ∧
    (∀ (σ : Store) (c : Nat) (l1 l2 : List Int), σ c = .vec l1 →
      l1.length = l2.length →
      Dependency.hasChanged { state := some c, lastValue := some (.vec l2) } σ =
        .ok false) := by
  refine ⟨?_, fun a bv => rfl, fun a bv => rfl, fun a bv => rfl,
          fun l1 l2 => rfl, ?_⟩
  · intro d σ c hc
    rw [hasChanged_eq_ok]
    cases hl : d.lastValue with
    | none => simp [Dependency.changedNow, hc, hl]
    | some last => simp [Dependency.changedNow, hc, hl]
  · intro σ c l1 l2 hcur hlen
    rw [hasChanged_eq_ok]
    simp [Dependency.changedNow, hcur, valNeq, hlen]

/-- Witness for C3: the vectors `[1, 2]` and `[3, 4]` differ but have equal
length, and the tracker reports unchanged. -/
theorem dependency_hasChanged_policy_witness :
    Dependency.hasChanged
        { state := some 0, lastValue := some (.vec [3, 4]) }
        (fun _ => .vec [1, 2]) = .ok false :=
  dependency_hasChanged_policy.2.2.2.2.2 (fun _ => .vec [1, 2]) 0 [1, 2] [3, 4]
    rfl rfl

/-- C8: `get` and `set` on a default-constructed (unbound) state handle
always fail with the uninitialized-access error; no call returns a value or
produces a store. -/
theorem state_unbound_always_faults :
    ∀ (σ : Store) (v : Val),
      stateGet none σ = .error "Accessing uninitialized state via get()" ∧
      stateSet none v σ = .error "Accessing uninitialized state via set()" :=
  fun _ _ => ⟨rfl, rfl⟩

/-- C10: a tracker whose handle is unbound reports unchanged and signals no
error, its snapshot clears the cache, and an effect whose only dependency is
unbound runs on its first evaluation and never again, with every call
returning a non-error result. -/
theorem unbound_dependency_inert (cache : Option Val) (σ σ' : Store)
    (f : Store → Store) :
    Dependency.hasChanged { state := none, lastValue := cache } σ =
      .ok false ∧
    Dependency.updateLastValue { state := none, lastValue := cache } σ =
      .ok { state := none, lastValue := none } ∧
    EffectHook.runIfChanged
        { effectFn := f, dependencies := [{ state := none, lastValue := cache }],
          isFirstRun := true } σ =
      .ok ({ effectFn := f,
             dependencies := [{ state := none, lastValue := none }],
             isFirstRun := false }, f σ) ∧
    EffectHook.runIfChanged
        { effectFn := f, dependencies := [{ state := none, lastValue := none }],
          isFirstRun := false } σ' =
      .ok ({ effectFn := f,
             dependencies := [{ state := none, lastValue := none }],
             isFirstRun := false }, σ') :=
  ⟨rfl, rfl, rfl, rfl⟩

end Engine

namespace Engine

-- Lemmas about the node heap operations -----------------------------------------

theorem setNode_at_self (h : Heap) (n : Nat) (nd : NodeData) :
    setNode h n nd n = nd := by
  simp [setNode]

theorem setNode_at_other (h : Heap) (n : Nat) (nd : NodeData) (k : Nat)
    (hk : k ≠ n) : setNode h n nd k = h k := by
  simp [setNode, hk]

theorem attach_parent_at (h : Heap) (p c k : Nat) :
    ((attach h p c) k).parent =
      if k = c then some p else (h k).parent := by
  by_cases hkc : k = c
  · subst hkc
    simp [attach, setNode_at_self]
  · by_cases hkp : k = p
    · subst hkp
      simp [attach, setNode, hkc]
    · simp [attach, setNode, hkc, hkp]

theorem attach_children_at (h : Heap) (p c k : Nat) :
    ((attach h p c) k).children =
      if k = p then (h p).children ++ [c] else (h k).children := by
  by_cases hkc : k = c
  · subst hkc
    by_cases hkp : k = p
    · subst hkp
      simp [attach, setNode]
    · simp [attach, setNode, hkp]
  · by_cases hkp : k = p
    · subst hkp
      simp [attach, setNode, hkc]
    · simp [attach, setNode, hkc, hkp]

theorem attach_preserves_inv (h : Heap) (p c : Nat) (inv : parentInv h) :
    parentInv (attach h p c) := by
  intro n q hq
  rw [attach_parent_at] at hq
  by_cases hnc : n = c
  · subst hnc
    simp at hq
    rcases hq with hq
    subst hq
    rw [attach_children_at]
    simp
  · simp [hnc] at hq
    have hmem := inv n q hq
    rw [attach_children_at]
    by_cases hqp : q = p
    · subst hqp
      simp
      exact Or.inl hmem
    · simp [hqp]
      exact hmem

theorem removeChild_children_at (h : Heap) (p c k : Nat) :
    ((removeChild h p (some c)) k).children =
      if k = p then (h p).children.filter (fun x => x != c)
      else (h k).children := by
  by_cases hpres : c ∈ (h p).children
  · by_cases hkc : k = c
    · subst hkc
      by_cases hkp : k = p
      · subst hkp; simp [removeChild, setNode, hpres]
      · simp [removeChild, setNode, hpres, hkp]
    · by_cases hkp : k = p
      · subst hkp; simp [removeChild, setNode, hpres, hkc]
      · simp [removeChild, setNode, hpres, hkc, hkp]
  · by_cases hkp : k = p
    · subst hkp; simp [removeChild, setNode, hpres]
    · simp [removeChild, setNode, hpres, hkp]

theorem removeChild_parent_at_other (h : Heap) (p c k : Nat) (hk : k ≠ c) :
    ((removeChild h p (some c)) k).parent = (h k).parent := by
  by_cases hpres : c ∈ (h p).children
  · by_cases hkp : k = p
    · subst hkp; simp [removeChild, setNode, hpres, hk]
    · simp [removeChild, setNode, hpres, hk, hkp]
  · by_cases hkp : k = p
    · subst hkp; simp [removeChild, setNode, hpres]
    · simp [removeChild, setNode, hpres, hkp]

theorem removeChild_parent_at_removed (h : Heap) (p c : Nat)
    (hpres : c ∈ (h p).children) :
    ((removeChild h p (some c)) c).parent = none := by
  simp [removeChild, setNode, hpres]

theorem removeChild_parent_at_absent (h : Heap) (p c k : Nat)
    (hpres : c ∉ (h p).children) :
    ((removeChild h p (some c)) k).parent = (h k).parent := by
  by_cases hkp : k = p
  · subst hkp; simp [removeChild, setNode, hpres]
  · simp [removeChild, setNode, hpres, hkp]

theorem removeChild_preserves_inv (h : Heap) (p : Nat) (oc : Option Nat)
    (inv : parentInv h) : parentInv (removeChild h p oc) := by
  cases oc with
  | none => exact inv
  | some c =>
    intro n q hq
    by_cases hnc : n = c
    · subst hnc
      by_cases hpres : n ∈ (h p).children
      · rw [removeChild_parent_at_removed h p n hpres] at hq
        exact absurd hq (by simp)
      · rw [removeChild_parent_at_absent h p n n hpres] at hq
        have hmem := inv n q hq
        rw [removeChild_children_at]
        by_cases hqp : q = p
        · subst hqp
          exact absurd hmem hpres
        · simp [hqp]
          exact hmem
    · rw [removeChild_parent_at_other h p c n hnc] at hq
      have hmem := inv n q hq
      rw [removeChild_children_at]
      by_cases hqp : q = p
      · subst hqp
        simp [List.mem_filter, hmem, hnc]
      · simp [hqp]
        exact hmem

theorem unparentAll_children_at (l : List Nat) (h : Heap) (k : Nat) :
    ((unparentAll h l) k).children = (h k).children := by
  induction l generalizing h with
  | nil => rfl
  | cons a rest ih =>
    show ((unparentAll (setNode h a { h a with parent := none }) rest) k).children = _
    rw [ih]
    by_cases hka : k = a
    · subst hka; simp [setNode]
    · simp [setNode, hka]

theorem unparentAll_parent_at (l : List Nat) (h : Heap) (k : Nat) :
    ((unparentAll h l) k).parent =
      if k ∈ l then none else (h k).parent := by
  induction l generalizing h with
  | nil => simp [unparentAll]
  | cons a rest ih =>
    show ((unparentAll (setNode h a { h a with parent := none }) rest) k).parent = _
    rw [ih]
    by_cases hkr : k ∈ rest
    · simp [hkr]
    · by_cases hka : k = a
      · subst hka; simp [hkr, setNode]
      · simp [hkr, hka, setNode]

theorem attachAll_preserves_inv (cs : List (Option Nat)) (h : Heap) (p : Nat)
    (inv : parentInv h) : parentInv (attachAll h p cs) := by
  induction cs generalizing h with
  | nil => exact inv
  | cons oc rest ih =>
    cases oc with
    | none => exact ih h inv
    | some c =>
      show parentInv (attachAll (attach h p c) p rest)
      exact ih (attach h p c) (attach_preserves_inv h p c inv)

theorem setChildren_preserves_inv (h : Heap) (p : Nat)
    (cs : List (Option Nat)) (inv : parentInv h) :
    parentInv (setChildren h p cs) := by
  unfold setChildren
  apply attachAll_preserves_inv
  intro n q hq
  have hq1 : ((unparentAll h (h p).children) n).parent = some q := by
    by_cases hnp : n = p
    · subst hnp
      simpa [setNode] using hq
    · simpa [setNode, hnp] using hq
  rw [unparentAll_parent_at] at hq1
  by_cases hnl : n ∈ (h p).children
  · simp [hnl] at hq1
  · simp [hnl] at hq1
    have hmem := inv n q hq1
    by_cases hqp : q = p
    · subst hqp
      exact absurd hmem hnl
    · show n ∈ ((setNode (unparentAll h (h p).children) p _) q).children
      rw [setNode_at_other _ _ _ _ hqp, unparentAll_children_at]
      exact hmem

theorem applyOp_preserves_inv (h : Heap) (op : TreeOp) (inv : parentInv h) :
    parentInv (applyOp h op) := by
  cases op with
  | add p oc =>
    cases oc with
    | none => exact inv
    | some c => exact attach_preserves_inv h p c inv
  | remove p oc => exact removeChild_preserves_inv h p oc inv
  | setChs p cs => exact setChildren_preserves_inv h p cs inv

theorem applyOps_preserves_inv (ops : List TreeOp) (h : Heap)
    (inv : parentInv h) : parentInv (applyOps h ops) := by
  induction ops generalizing h with
  | nil => exact inv
  | cons op rest ih =>
    exact ih (applyOp h op) (applyOp_preserves_inv h op inv)

-- Claim theorems: tree mutation --------------------------------------------------

/-- C2 counterexample: starting from fresh parentless nodes, adding node 1 to
node 0 twice puts two identical entries in the child list, and `RemoveChild`
then empties the list — it does not remove only the first occurrence. -/
theorem removeChild_removes_all_occurrences :
    ((removeChild
        (applyOps initialHeap [TreeOp.add 0 (some 1), TreeOp.add 0 (some 1)])
        0 (some 1)) 0).children = [] ∧
    ((removeChild
        (applyOps initialHeap [TreeOp.add 0 (some 1), TreeOp.add 0 (some 1)])
        0 (some 1)) 0).children ≠ [1] := by
  constructor
  · rfl
  · decide

/-- C2 (amended): `RemoveChild(c)` removes every entry of the child list that
equals `c` by identity and sets `c`'s parent pointer to null; a null argument
or an absent child is a silent no-op leaving the heap unchanged; nodes other
than the parent and the removed child are untouched. -/
theorem removeChild_semantics (h : Heap) (p c : Nat) :
    removeChild h p none = h ∧
    (c ∉ (h p).children → removeChild h p (some c) = h) ∧
    (c ∈ (h p).children →
      ((removeChild h p (some c)) p).children =
          (h p).children.filter (fun x => x != c) ∧
        ((removeChild h p (some c)) c).parent = none ∧
        ∀ n : Nat, n ≠ p → n ≠ c → removeChild h p (some c) n = h n) := by
  refine ⟨rfl, ?_, ?_⟩
  · intro habs
    have hfilter : (h p).children.filter (fun x => x != c) = (h p).children := by
      apply List.filter_eq_self.mpr
      intro a ha
      have hac : a ≠ c := fun hac => habs (hac ▸ ha)
      simpa using hac
    funext k
    by_cases hkp : k = p
    · subst hkp
      simp [removeChild, setNode, habs, hfilter]
    · simp [removeChild, setNode, habs, hkp]
  · intro hmem
    refine ⟨(removeChild_children_at h p c p).trans (by simp), ?_, ?_⟩
    · exact removeChild_parent_at_removed h p c hmem
    · intro n hnp hnc
      simp [removeChild, setNode, hmem, hnp, hnc]

/-- Witness for C2 (amended): removing an absent child from a fresh heap is a
no-op. -/
theorem removeChild_semantics_witness :
    removeChild initialHeap 0 (some 1) = initialHeap :=
  (removeChild_semantics initialHeap 0 1).2.1 (by decide)

/-- C4: after any sequence of `AddChild` / `RemoveChild` / `SetChildren`
operations starting from freshly constructed parentless nodes, every node
whose parent pointer is non-null is contained in that parent's child list. -/
theorem node_tree_parent_invariant (ops : List TreeOp) :
    parentInv (applyOps initialHeap ops) := by
  apply applyOps_preserves_inv
  intro n p hp
  exact absurd hp (by simp [initialHeap, freshNode])

/-- Witness for C4: after `AddChild(0, 1)`, node 1's parent pointer is node 0
and the invariant yields its membership in node 0's child list. -/
theorem node_tree_parent_invariant_witness :
    (1 : Nat) ∈ ((applyOps initialHeap [TreeOp.add 0 (some 1)]) 0).children :=
  node_tree_parent_invariant [TreeOp.add 0 (some 1)] 1 0 rfl

end Engine

namespace Engine

-- Claim theorems: walkers, derived values, conditional mounting, context --------

/-- C5: `updateTree` of a null node is a no-op; at a visited node the update
walker runs the registered update callbacks, then the effect hooks, and only
then the children in list order; consequently a cell written by a parent's
update callback is observed by a child's callback within the same
`updateTree` call. -/
theorem updateKids_nil (dt : Rat) (σ : Store) :
    updateKids dt [] σ = .ok ([], σ) := by
  rw [updateKids.eq_def]

theorem updateKids_cons (dt : Rat) (k : ENode) (rest : List ENode) (σ : Store) :
    updateKids dt (k :: rest) σ =
      (do
        let r ← updateNode dt k σ
        let rr ← updateKids dt rest r.2
        pure (r.1 :: rr.1, rr.2)) := by
  rw [updateKids.eq_def]

theorem updateTree_preorder :
    (∀ (dt : Rat) (σ : Store), updateTree none dt σ = .ok (none, σ)) ∧
    (∀ (dt : Rat) (ups : List (Rat → Store → Store))
        (effs : List EffectHook) (kids : List ENode) (σ : Store),
      updateNode dt (ENode.mk ups effs kids) σ =
        (do
          let r ← runEffectHooks effs (runUpdateCallbacks dt ups σ)
          let rk ← updateKids dt kids r.2
          pure (ENode.mk ups r.1 rk.1, rk.2))) ∧
    (∀ (dt : Rat) (σ : Store) (k j : Nat) (v : Val),
      (updateTree
          (some (ENode.mk [fun _ s => setCell s k v] []
            [ENode.mk [fun _ s => setCell s j (s k)] [] []]))
          dt σ).map (fun r => r.2 j) = .ok v) := by
  refine ⟨fun dt σ => rfl, ?_, ?_⟩
  · intro dt ups effs kids σ
    rw [updateNode]
  · intro dt σ k j v
    have hkids :
        updateKids dt [ENode.mk [fun _ s => setCell s j (s k)] [] []]
          (setCell σ k v) =
        .ok ([ENode.mk [fun _ s => setCell s j (s k)] [] []],
             setCell (setCell σ k v) j ((setCell σ k v) k)) := by
      rw [updateKids_cons, updateNode]
      simp [runUpdateCallbacks, runEffectHooks, exc_bind_ok, exc_pure_eq_ok,
        updateKids_nil]
    rw [updateTree, updateNode]
    simp only [runUpdateCallbacks, List.foldl, runEffectHooks, exc_bind_ok,
      hkids, exc_pure_eq_ok, Except.map, setCell_self]

/-- C7: `derived(computeFn, dep)` immediately evaluates `computeFn` and seeds
the returned freshly allocated cell with the result; after `dep` is
overwritten and one update pass runs over the owning node, the cell holds
`computeFn` applied to the new dependency value. -/
theorem derived_consistency (f : Val → Val) (d cid : Nat)
    (σ : Store) (v1 : Val) (dt : Rat) :
    (derivedM (fun s => f (s d)) cid [some d] σ).2.1 cid = f (σ d) ∧
    (derivedM (fun s => f (s d)) cid [some d] σ).1 = some cid ∧
    (updateTree
        (some (ENode.mk []
          [(derivedM (fun s => f (s d)) cid [some d] σ).2.2] []))
        dt
        (setCell (derivedM (fun s => f (s d)) cid [some d] σ).2.1 d v1)).map
      (fun r => r.2 cid) = .ok (f v1) := by
  refine ⟨by simp [derivedM, setCell_self], rfl, ?_⟩
  have hfire :=
    runIfChanged_fires
      { effectFn := fun s => setCell s cid (f (s d)),
        dependencies := [{ state := some d, lastValue := none }],
        isFirstRun := true }
      (setCell (setCell σ cid (f (σ d))) d v1) (Or.inl rfl)
  have hd : (setCell (setCell σ cid (f (σ d))) d v1) d = v1 :=
    setCell_self _ _ _
  rw [updateTree, updateNode]
  simp only [derivedM, runUpdateCallbacks, List.foldl, List.map,
    runEffectHooks, hfire, exc_bind_ok, exc_pure_eq_ok, Except.map, hd,
    updateKids_nil]
  simp [setCell_self, hd]

/-- Witness for C7: with `f` adding one, the derived cell seeds to 6 from a
dependency holding 5, and one pass after the dependency is set to 9 it reads
10. -/
theorem derived_consistency_witness :
    (derivedM (fun s => Val.i (valToInt (s 0) + 1)) 1 [some 0]
        (fun _ => Val.i 5)).2.1 1 = Val.i 6 ∧
    (derivedM (fun s => Val.i (valToInt (s 0) + 1)) 1 [some 0]
        (fun _ => Val.i 5)).1 = some 1 ∧
    (updateTree
        (some (ENode.mk []
          [(derivedM (fun s => Val.i (valToInt (s 0) + 1)) 1 [some 0]
              (fun _ => Val.i 5)).2.2] []))
        0
        (setCell
          (derivedM (fun s => Val.i (valToInt (s 0) + 1)) 1 [some 0]
              (fun _ => Val.i 5)).2.1 0 (Val.i 9))).map
      (fun r => r.2 1) = .ok (Val.i 10) :=
  derived_consistency (fun v => Val.i (valToInt v + 1)) 0 1
    (fun _ => Val.i 5) (Val.i 9) 0

/-- C6: a `Conditional` wrapper with its condition initially true mounts the
child; across two update passes the child's cell accumulates to 2; setting
the condition false and passing once unmounts the child; setting it true and
passing once remounts it, and the child's cell still holds the accumulated
value 2, not its initial value 0. -/
theorem conditional_roundtrip_preserves_state :
    c6World0.store 1 = Val.i 0 ∧
    c6BeforeUnmount.map (fun w => w.store 1) = .ok (Val.i 2) ∧
    c6Run.map (fun w => (w.store 1, (w.heap 0).children.contains 1)) =
      .ok (Val.i 2, true) := by
  refine ⟨rfl, by rfl, by rfl⟩

/-- C9: context resolution walks from the starting node upward and stops at
the first node providing the key: if no node of the chain provides it, the
result is none; if the nearest provider stores a pointer under the key, the
pointer is returned when its recorded static type matches the requested one,
and resolution returns none (rather than reinterpreting the value) when it
does not. -/
theorem context_resolution :
    (∀ (chain : List CtxMap) (key ty : Nat),
      (∀ m ∈ chain, m key = none) → getContextValue chain key ty = none) ∧
    (∀ (pre : List CtxMap) (m : CtxMap) (rest : List CtxMap)
        (key ty sv v : Nat),
      (∀ m' ∈ pre, m' key = none) → m key = some (sv, v) →
      getContextValue (pre ++ m :: rest) key ty =
        if ty = sv then some v else none) := by
  constructor
  · intro chain key ty hmiss
    induction chain with
    | nil => rfl
    | cons m rest ih =>
      have hm : m key = none := hmiss m (by simp)
      rw [getContextValue, hm]
      exact ih (fun m' hm' => hmiss m' (by simp [hm']))
  · intro pre m rest key ty sv v hpre hm
    induction pre with
    | nil =>
      rw [List.nil_append, getContextValue, hm]
    | cons m0 pre0 ih =>
      have h0 : m0 key = none := hpre m0 (by simp)
      rw [List.cons_append, getContextValue, h0]
      exact ih (fun m' hm' => hpre m' (by simp [hm']))

/-- Witness for C9: a two-node chain whose root provides key 5 with stored
type 7 and value 42; resolving type 7 returns the value, resolving type 8
returns none. -/
theorem context_resolution_witness :
    getContextValue
        ([fun _ => none, fun k => if k = 5 then some (7, 42) else none] :
          List CtxMap) 5 7 = some 42 ∧
    getContextValue
        ([fun _ => none, fun k => if k = 5 then some (7, 42) else none] :
          List CtxMap) 5 8 = none :=
  ⟨context_resolution.2 [fun _ => none]
      (fun k => if k = 5 then some (7, 42) else none) [] 5 7 7 42
      (by intro m' hm'; rw [List.mem_singleton] at hm'; subst hm'; rfl) rfl,
    context_resolution.2 [fun _ => none]
      (fun k => if k = 5 then some (7, 42) else none) [] 5 8 7 42
      (by intro m' hm'; rw [List.mem_singleton] at hm'; subst hm'; rfl) rfl⟩

end Engine
